import Mathlib

/-!
# Verification of `embedded-storage` NOR-flash RMW adapters

Shallow embedding of `src/src/nor_flash.rs`: the bounds/alignment validators
(`check_slice`, `check_read`, `check_write`, `check_erase`), the `Page` model,
the `MockFlash` device, and the two read-modify-write adapters
(`RmwNorFlashStorage` and `RmwMultiwriteNorFlashStorage`).

Rust `usize`/`u32` quantities are modelled as `Nat`; all subtractions in the
source are either guarded (`check_slice`) or saturating (`saturating_sub`),
which coincides with truncated `Nat` subtraction.  Bytes are modelled as `Nat`
with `&&&` (`Nat.land`) for the bitwise-AND write semantics of NOR flash.

The overlap decomposition lives in the repository's `iter` module, which is not
present under `src/`; it is modelled from the specification (§4.4), see
`overlaps` below.  Device calls issued by the adapters are recorded in a trace
(`DevOp` paired with the result of each call) so that operation-counting and
error-propagation properties can be stated.
-/

/-- NOR flash error kinds, from `enum NorFlashErrorKind`. -/
inductive NorFlashErrorKind where
  | NotAligned
  | OutOfBounds
  | DirtyWrite
  | Other
deriving DecidableEq, Repr

/-- `check_slice` from the source: bounds check first
(`length > capacity || offset > capacity - length`, overflow-free), then
alignment of `offset` and `length` against `align`. -/
def check_slice (capacity align offset length : Nat) :
    Except NorFlashErrorKind Unit :=
  if length > capacity || offset > capacity - length then
    .error .OutOfBounds
  else if offset % align != 0 || length % align != 0 then
    .error .NotAligned
  else
    .ok ()

/-- `check_read`: `check_slice` with the device's `READ_SIZE` granularity. -/
def check_read (capacity READ_SIZE offset length : Nat) :
    Except NorFlashErrorKind Unit :=
  check_slice capacity READ_SIZE offset length

/-- `check_write`: `check_slice` with the device's `WRITE_SIZE` granularity. -/
def check_write (capacity WRITE_SIZE offset length : Nat) :
    Except NorFlashErrorKind Unit :=
  check_slice capacity WRITE_SIZE offset length

/-- `check_erase` from the source: `from > to || to > capacity` is
out-of-bounds, then both ends must be `ERASE_SIZE`-aligned. -/
def check_erase (capacity ERASE_SIZE fromAddr toAddr : Nat) :
    Except NorFlashErrorKind Unit :=
  if fromAddr > toAddr || toAddr > capacity then
    .error .OutOfBounds
  else if fromAddr % ERASE_SIZE != 0 || toAddr % ERASE_SIZE != 0 then
    .error .NotAligned
  else
    .ok ()

/-- `struct Page { start, size }` from the source. -/
structure Page where
  start : Nat
  size : Nat
deriving DecidableEq, Repr

/-- `Page::new(index, size)`: `start = index * size`. -/
def Page.new (index size : Nat) : Page :=
  { start := index * size, size := size }

/-- `Page::end`: `start + size` (named `endAddr` since `end` is reserved). -/
def Page.endAddr (p : Page) : Nat :=
  p.start + p.size

/-- `Region::contains` for `Page`: `start <= address && end > address`. -/
def Page.contains (p : Page) (address : Nat) : Bool :=
  decide (p.start ≤ address) && decide (address < p.endAddr)

/-- The compile-time device parameters of the `NorFlash`/`MockFlash` traits:
`CAPACITY`, `READ_SIZE`, `WRITE_SIZE`, `ERASE_SIZE`, `ERASE_BYTE` and the
`MULTI_WRITE` marker. -/
structure FlashCfg where
  CAPACITY : Nat
  READ_SIZE : Nat
  WRITE_SIZE : Nat
  ERASE_SIZE : Nat
  ERASE_BYTE : Nat
  MULTI_WRITE : Bool
deriving DecidableEq, Repr

/-- Overwrite the elements of `l` beginning at position `s` with `d`,
truncating `d` at the end of `l`; this is the effect of
`l[s..].iter_mut().zip(d)` assignment loops and of `copy_from_slice` into a
sub-slice. -/
def splice (l : List Nat) (s : Nat) (d : List Nat) : List Nat :=
  l.take s ++ d.take (l.length - s) ++ l.drop (s + d.length)

theorem splice_length (l : List Nat) (s : Nat) (d : List Nat) :
    (splice l s d).length = l.length := by
  simp only [splice, List.length_append, List.length_take, List.length_drop]
  omega

theorem splice_getD (l : List Nat) (s : Nat) (d : List Nat) (a : Nat)
    (hsd : s + d.length ≤ l.length) :
    (splice l s d).getD a 0 =
      if s ≤ a ∧ a < s + d.length then d.getD (a - s) 0 else l.getD a 0 := by
  have hs : s ≤ l.length := by omega
  have htake : d.take (l.length - s) = d := List.take_of_length_le (by omega)
  have hlt : (l.take s).length = s := by
    simp only [List.length_take]
    omega
  simp only [splice, htake, List.getD_eq_getElem?_getD, List.append_assoc]
  rcases Nat.lt_or_ge a s with h | h
  · rw [List.getElem?_append_left (by omega : a < (l.take s).length),
      List.getElem?_take_of_lt h, if_neg (by omega)]
  · rw [List.getElem?_append_right (by omega : (l.take s).length ≤ a), hlt]
    rcases Nat.lt_or_ge a (s + d.length) with h2 | h2
    · rw [List.getElem?_append_left (by omega : a - s < d.length), if_pos ⟨h, h2⟩]
    · rw [List.getElem?_append_right (by omega : d.length ≤ a - s),
        List.getElem?_drop, if_neg (by omega)]
      have harith : s + d.length + (a - s - d.length) = a := by omega
      rw [harith]

/-- `MockFlash::read`: validate with `check_read`, then return the requested
slice of the backing array.  Reads never mutate the device. -/
def MockFlash.read (c : FlashCfg) (data : List Nat) (offset length : Nat) :
    Except NorFlashErrorKind (List Nat) :=
  match check_read c.CAPACITY c.READ_SIZE offset length with
  | .error e => .error e
  | .ok _ => .ok ((data.drop offset).take length)

/-- The byte-programming loop of `MockFlash::write`: for each source byte, the
single-write check (`!MULTI_WRITE && dst != ERASE_BYTE`), then `dst &= src`,
then the dirty-result check (`src != dst`).  An error aborts mid-loop, leaving
the already-programmed prefix in place, exactly like the Rust `return Err`. -/
def MockFlash.writeLoop (c : FlashCfg) :
    List Nat → Nat → List Nat → List Nat × Option NorFlashErrorKind
  | data, _, [] => (data, none)
  | data, i, src :: rest =>
    let dst := data.getD i 0
    if !c.MULTI_WRITE && dst != c.ERASE_BYTE then
      (data, some .DirtyWrite)
    else
      let dst2 := dst &&& src
      let data2 := data.set i dst2
      if src != dst2 then
        (data2, some .DirtyWrite)
      else
        MockFlash.writeLoop c data2 (i + 1) rest

/-- `MockFlash::write`: validate with `check_write`, then AND-program the bytes
starting at `offset`. -/
def MockFlash.write (c : FlashCfg) (data : List Nat) (offset : Nat)
    (bytes : List Nat) : List Nat × Option NorFlashErrorKind :=
  match check_write c.CAPACITY c.WRITE_SIZE offset bytes.length with
  | .error e => (data, some e)
  | .ok _ => MockFlash.writeLoop c data offset bytes

/-- `MockFlash::erase`: validate with `check_erase`, then fill
`[fromAddr, toAddr)` with `ERASE_BYTE`. -/
def MockFlash.erase (c : FlashCfg) (data : List Nat) (fromAddr toAddr : Nat) :
    List Nat × Option NorFlashErrorKind :=
  match check_erase c.CAPACITY c.ERASE_SIZE fromAddr toAddr with
  | .error e => (data, some e)
  | .ok _ => (splice data fromAddr (List.replicate (toAddr - fromAddr) c.ERASE_BYTE), none)

/-- A device operation issued by an adapter, as recorded in a trace. -/
inductive DevOp where
  | readOp (offset length : Nat)
  | writeOp (offset : Nat) (bytes : List Nat)
  | eraseOp (fromAddr toAddr : Nat)
deriving DecidableEq, Repr

/-- A trace entry pairs the issued device operation with the result the device
returned for it (`none` = success). -/
abbrev Trace := List (DevOp × Option NorFlashErrorKind)

/-- Is this trace entry an `erase` call? -/
def DevOp.isErase : DevOp → Bool
  | .eraseOp _ _ => true
  | _ => false

/-- Is this trace entry a `write` call? -/
def DevOp.isWrite : DevOp → Bool
  | .writeOp _ _ => true
  | _ => false

/-- The number of bytes a `write` call carries (0 for other operations). -/
def DevOp.writeLength : DevOp → Nat
  | .writeOp _ b => b.length
  | _ => 0

/-- One page of `RmwNorFlashStorage::write` (`src/src/nor_flash.rs:281-299`):
read the page into the merge buffer, erase the page, splice `data` in at
`addr - page.start` (a `saturating_sub` in the source), and write the full
page back; device errors abort with `?`. -/
def rmwStep (c : FlashCfg) (flash : List Nat) (t : List Nat × Page × Nat) :
    List Nat × Option NorFlashErrorKind × Trace :=
  let (data, page, addr) := t
  let offset_into_page := addr - page.start
  match MockFlash.read c flash page.start c.ERASE_SIZE with
  | .error e => (flash, some e, [(.readOp page.start c.ERASE_SIZE, some e)])
  | .ok buf =>
    match MockFlash.erase c flash page.start page.endAddr with
    | (flash1, some e) =>
      (flash1, some e,
        [(.readOp page.start c.ERASE_SIZE, none),
         (.eraseOp page.start page.endAddr, some e)])
    | (flash1, none) =>
      let buf2 := splice buf offset_into_page data
      let (flash2, e2) := MockFlash.write c flash1 page.start buf2
      (flash2, e2,
        [(.readOp page.start c.ERASE_SIZE, none),
         (.eraseOp page.start page.endAddr, none),
         (.writeOp page.start buf2, e2)])

/-- One page of `RmwMultiwriteNorFlashStorage::write`
(`src/src/nor_flash.rs:356-388`): read the page, test AND-compatibility of
`data` against the existing bytes (`is_subset`), and either issue one direct
padded write (no erase) or fall back to the erase/merge/write sequence.
The merge buffer's length (`merge_buffer_len`) is explicit because the
AND-compatible branch slices `merge_buffer[..aligned_end]` where
`aligned_end` can exceed the buffer length: that slice panics in Rust before
any write call is issued, modelled here as `none`.  The `merge_buffer[..
ERASE_SIZE]` slice taken for the read (and for the fallback branch) likewise
panics when the buffer is shorter than `ERASE_SIZE` — a state the
constructor normally rules out — so that case is `none` as well, before the
read. -/
def rmwMultiStep (c : FlashCfg) (merge_buffer_len : Nat) (flash : List Nat)
    (t : List Nat × Page × Nat) :
    Option (List Nat × Option NorFlashErrorKind × Trace) :=
  let (data, page, addr) := t
  let offset_into_page := addr - page.start
  if merge_buffer_len < c.ERASE_SIZE then
    none
  else
    match MockFlash.read c flash page.start c.ERASE_SIZE with
    | .error e =>
      some (flash, some e, [(.readOp page.start c.ERASE_SIZE, some e)])
    | .ok buf =>
      let rhs := buf.drop offset_into_page
      let is_subset := (data.zip rhs).all fun p => p.1 &&& p.2 == p.1
      if is_subset then
        let woff := addr % c.WRITE_SIZE
        let aligned_end := data.length % c.WRITE_SIZE + woff + data.length
        if aligned_end ≤ merge_buffer_len then
          let wbuf := List.replicate woff c.ERASE_BYTE ++ data ++
            List.replicate (aligned_end - (woff + data.length)) c.ERASE_BYTE
          let (flash2, e2) := MockFlash.write c flash (addr - woff) wbuf
          some (flash2, e2,
            [(.readOp page.start c.ERASE_SIZE, none),
             (.writeOp (addr - woff) wbuf, e2)])
        else
          none
      else
        match MockFlash.erase c flash page.start page.endAddr with
        | (flash1, some e) =>
          some (flash1, some e,
            [(.readOp page.start c.ERASE_SIZE, none),
             (.eraseOp page.start page.endAddr, some e)])
        | (flash1, none) =>
          let buf2 := splice buf offset_into_page data
          let (flash2, e2) := MockFlash.write c flash1 page.start buf2
          some (flash2, e2,
            [(.readOp page.start c.ERASE_SIZE, none),
             (.eraseOp page.start page.endAddr, none),
             (.writeOp page.start buf2, e2)])

/-- Iterate a per-page step over the decomposition triples, threading the
device state; the first failing step aborts the remaining pages (the `?`
operator in the source's `for` loop). -/
def runPages (step : List Nat → List Nat × Page × Nat →
    List Nat × Option NorFlashErrorKind × Trace) :
    List (List Nat × Page × Nat) → List Nat →
    List Nat × Option NorFlashErrorKind × Trace
  | [], flash => (flash, none, [])
  | t :: ts, flash =>
    match step flash t with
    | (f1, some e, tr) => (f1, some e, tr)
    | (f1, none, tr) =>
      let (f2, r, tr2) := runPages step ts f1
      (f2, r, tr ++ tr2)

/-- Panic-aware page runner for the multiwrite adapter: like `runPages`, but
a step returning `none` (a merge-buffer slice panic) aborts the whole call
with `none` — no further device operation is issued and nothing is
returned. -/
def runPagesP (step : List Nat → List Nat × Page × Nat →
    Option (List Nat × Option NorFlashErrorKind × Trace)) :
    List (List Nat × Page × Nat) → List Nat →
    Option (List Nat × Option NorFlashErrorKind × Trace)
  | [], flash => some (flash, none, [])
  | t :: ts, flash =>
    match step flash t with
    | none => none
    | some (f1, some e, tr) => some (f1, some e, tr)
    | some (f1, none, tr) =>
      match runPagesP step ts f1 with
      | none => none
      | some (f2, r, tr2) => some (f2, r, tr ++ tr2)

/-- Modelled from the spec: the overlap decomposition (`OverlapIterator` /
`IterableByOverlaps` from the repository's `iter` module, which is not present
under `src/`).  Per §4.4, for each page whose address range intersects
`[offset, offset + bytes.len)` it produces the sub-slice of `bytes` inside the
page, the page itself, and the absolute address of the sub-slice's first
byte, in page order. -/
def overlaps (pages : List Page) (bytes : List Nat) (offset : Nat) :
    List (List Nat × Page × Nat) :=
  pages.filterMap fun p =>
    let s := max p.start offset
    let e := min p.endAddr (offset + bytes.length)
    if s < e then
      some ((bytes.drop (s - offset)).take (e - s), p, s)
    else
      none

/-- The ascending page sequence generated by both adapters' `write`:
`(0..last_page).map(|i| Page::new(i, ERASE_SIZE))` with
`last_page = capacity / ERASE_SIZE`. -/
def pageSeq (c : FlashCfg) : List Page :=
  (List.range (c.CAPACITY / c.ERASE_SIZE)).map fun i => Page.new i c.ERASE_SIZE

/-- `RmwNorFlashStorage::write`: run the erase-required RMW step over the
overlap decomposition of the request against the device's page sequence. -/
def RmwNorFlashStorage.write (c : FlashCfg) (flash : List Nat) (offset : Nat)
    (bytes : List Nat) : List Nat × Option NorFlashErrorKind × Trace :=
  runPages (rmwStep c) (overlaps (pageSeq c) bytes offset) flash

/-- `RmwMultiwriteNorFlashStorage::write`: run the multiwrite RMW step over
the overlap decomposition of the request against the page sequence; `none`
models a merge-buffer slice panic inside some page's step. -/
def RmwMultiwriteNorFlashStorage.write (c : FlashCfg)
    (merge_buffer_len : Nat) (flash : List Nat) (offset : Nat)
    (bytes : List Nat) :
    Option (List Nat × Option NorFlashErrorKind × Trace) :=
  runPagesP (rmwMultiStep c merge_buffer_len)
    (overlaps (pageSeq c) bytes offset) flash

/-- `RmwNorFlashStorage::new`: `none` models the `panic!` taken when the merge
buffer is smaller than `ERASE_SIZE`; otherwise construction succeeds and no
device operation is issued (the empty trace). -/
def RmwNorFlashStorage.new (c : FlashCfg) (merge_buffer_len : Nat) :
    Option Trace :=
  if merge_buffer_len < c.ERASE_SIZE then none else some []

/-- `RmwMultiwriteNorFlashStorage::new`: same precondition as
`RmwNorFlashStorage::new`. -/
def RmwMultiwriteNorFlashStorage.new (c : FlashCfg) (merge_buffer_len : Nat) :
    Option Trace :=
  if merge_buffer_len < c.ERASE_SIZE then none else some []

/-- **C4**: `check_slice` (the validator used by `check_read` and
`check_write`) fails with `OutOfBounds` exactly when
`offset + length > capacity` — the guarded form
`length > capacity || offset > capacity - length` computes this without
overflow — else fails with `NotAligned` when `offset` or `length` is not a
multiple of the granularity, and otherwise succeeds; `OutOfBounds` takes
priority over `NotAligned`. -/
theorem check_slice_spec (capacity align offset length : Nat)
    (halign : 0 < align) :
    check_read capacity align offset length =
      check_slice capacity align offset length ∧
    check_write capacity align offset length =
      check_slice capacity align offset length ∧
    check_slice capacity align offset length =
      (if capacity < offset + length then .error .OutOfBounds
       else if offset % align ≠ 0 ∨ length % align ≠ 0 then .error .NotAligned
       else .ok ()) := by
  refine ⟨rfl, rfl, ?_⟩
  unfold check_slice
  have hbound : ((decide (length > capacity) ||
      decide (offset > capacity - length)) = true) ↔
      capacity < offset + length := by
    simp only [Bool.or_eq_true, decide_eq_true_eq]
    omega
  have halignb : ((offset % align != 0 || length % align != 0) = true) ↔
      (offset % align ≠ 0 ∨ length % align ≠ 0) := by
    simp only [Bool.or_eq_true, ne_eq, bne_iff_ne]
  by_cases h : capacity < offset + length
  · rw [if_pos (hbound.mpr h), if_pos h]
  · rw [if_neg (fun hc => h (hbound.mp hc)), if_neg h]
    by_cases ha : offset % align ≠ 0 ∨ length % align ≠ 0
    · rw [if_pos (halignb.mpr ha), if_pos ha]
    · rw [if_neg (fun hc => ha (halignb.mp hc)), if_neg ha]

/-- Witness for `check_slice_spec` at a concrete aligned in-bounds input. -/
theorem check_slice_spec_witness :
    0 < 4 ∧ check_slice 64 4 60 8 =
      (if (64 : Nat) < 60 + 8 then .error .OutOfBounds
       else if 60 % 4 ≠ 0 ∨ 8 % 4 ≠ 0 then .error .NotAligned
       else .ok ()) :=
  ⟨by decide, (check_slice_spec 64 4 60 8 (by decide)).2.2⟩

/-- **C5**: `check_erase` returns `OutOfBounds` when `from > to` or
`to > capacity`, else `NotAligned` when `from` or `to` is not a multiple of
`ERASE_SIZE`, else succeeds; in particular `from > to` yields `OutOfBounds`,
never `NotAligned`. -/
theorem check_erase_spec (capacity ERASE_SIZE fromAddr toAddr : Nat)
    (hES : 0 < ERASE_SIZE) :
    check_erase capacity ERASE_SIZE fromAddr toAddr =
      (if fromAddr > toAddr ∨ toAddr > capacity then .error .OutOfBounds
       else if ¬ ERASE_SIZE ∣ fromAddr ∨ ¬ ERASE_SIZE ∣ toAddr then
         .error .NotAligned
       else .ok ()) ∧
    (fromAddr > toAddr →
      check_erase capacity ERASE_SIZE fromAddr toAddr =
        .error .OutOfBounds) := by
  have hdvd : ∀ n : Nat, ERASE_SIZE ∣ n ↔ n % ERASE_SIZE = 0 := fun n =>
    Nat.dvd_iff_mod_eq_zero
  have hbound : ((decide (fromAddr > toAddr) || decide (toAddr > capacity))
      = true) ↔ (fromAddr > toAddr ∨ toAddr > capacity) := by
    simp only [Bool.or_eq_true, decide_eq_true_eq]
  have halignb : ((fromAddr % ERASE_SIZE != 0 || toAddr % ERASE_SIZE != 0)
      = true) ↔ (¬ ERASE_SIZE ∣ fromAddr ∨ ¬ ERASE_SIZE ∣ toAddr) := by
    simp only [Bool.or_eq_true, ne_eq, bne_iff_ne, hdvd]
  constructor
  · unfold check_erase
    by_cases hb : fromAddr > toAddr ∨ toAddr > capacity
    · rw [if_pos (hbound.mpr hb), if_pos hb]
    · rw [if_neg (fun hc => hb (hbound.mp hc)), if_neg hb]
      by_cases ha : ¬ ERASE_SIZE ∣ fromAddr ∨ ¬ ERASE_SIZE ∣ toAddr
      · rw [if_pos (halignb.mpr ha), if_pos ha]
      · rw [if_neg (fun hc => ha (halignb.mp hc)), if_neg ha]
  · intro h
    unfold check_erase
    rw [if_pos (hbound.mpr (Or.inl h))]

/-- Witness for `check_erase_spec`: `from > to` on a 64-byte device gives
`OutOfBounds`, not `NotAligned`. -/
theorem check_erase_spec_witness :
    0 < 16 ∧ (32 : Nat) > 16 ∧ check_erase 64 16 32 16 = .error .OutOfBounds :=
  ⟨by decide, by decide, (check_erase_spec 64 16 32 16 (by decide)).2 (by decide)⟩

/-- **C10**: a zero-length request at a granularity-aligned offset passes both
`check_read` and `check_write` whenever `offset ≤ capacity`, including
`offset = capacity` exactly. -/
theorem check_zero_length_ok (capacity g offset : Nat) (hg : g ∣ offset)
    (hoff : offset ≤ capacity) :
    check_read capacity g offset 0 = .ok () ∧
    check_write capacity g offset 0 = .ok () := by
  obtain ⟨k, rfl⟩ := hg
  have hmod : g * k % g = 0 := Nat.mul_mod_right g k
  have : check_slice capacity g (g * k) 0 = .ok () := by
    unfold check_slice
    rw [if_neg ?hb, if_neg ?ha]
    case hb =>
      simp only [Bool.or_eq_true, decide_eq_true_eq]
      omega
    case ha =>
      simp only [Bool.or_eq_true, ne_eq, bne_iff_ne, hmod, Nat.zero_mod]
      simp
  exact ⟨this, this⟩

/-- Witness for `check_zero_length_ok` at `offset = capacity` exactly. -/
theorem check_zero_length_ok_witness :
    (4 : Nat) ∣ 64 ∧ (64 : Nat) ≤ 64 ∧ check_read 64 4 64 0 = .ok () :=
  ⟨by decide, by decide,
    (check_zero_length_ok 64 4 64 (by decide) (by decide)).1⟩

/-- **C9**: both adapter constructors fail fatally (modelled as `none`) iff
the merge buffer is smaller than `ERASE_SIZE`; with a buffer of at least
`ERASE_SIZE` bytes they succeed, issuing no device operation (empty trace). -/
theorem adapters_new_spec (c : FlashCfg) (merge_buffer_len : Nat) :
    (RmwNorFlashStorage.new c merge_buffer_len = none ↔
      merge_buffer_len < c.ERASE_SIZE) ∧
    (RmwMultiwriteNorFlashStorage.new c merge_buffer_len = none ↔
      merge_buffer_len < c.ERASE_SIZE) ∧
    (c.ERASE_SIZE ≤ merge_buffer_len →
      RmwNorFlashStorage.new c merge_buffer_len = some [] ∧
      RmwMultiwriteNorFlashStorage.new c merge_buffer_len = some []) := by
  unfold RmwNorFlashStorage.new RmwMultiwriteNorFlashStorage.new
  by_cases h : merge_buffer_len < c.ERASE_SIZE
  · rw [if_pos h]
    exact ⟨by simp [h], by simp [h], fun hle => absurd hle (by omega)⟩
  · rw [if_neg h]
    exact ⟨by simp [h], by simp [h], fun _ => ⟨rfl, rfl⟩⟩

/-- Witness for `adapters_new_spec` with a buffer exactly `ERASE_SIZE` long. -/
theorem adapters_new_spec_witness :
    (16 : Nat) ≤ 16 ∧
    RmwNorFlashStorage.new ⟨64, 4, 4, 16, 255, false⟩ 16 = some [] :=
  ⟨by decide,
    ((adapters_new_spec ⟨64, 4, 4, 16, 255, false⟩ 16).2.2 (by decide)).1⟩

/-- **C8 counterexample**: on a 64-byte device with 16-byte pages
(`last_page = 64 / 16 = 4`) the enumerated page sequence contains **no** page
with index `last_page` (start `4 * 16 = 64`): the code iterates the half-open
range `0..last_page`, so the inclusive index list `0, 1, ..., last_page` of
the claim does not match the code. -/
theorem pageSeq_c8_counterexample :
    ¬ ∃ p ∈ pageSeq ⟨64, 4, 4, 16, 255, false⟩,
        p.start = (64 / 16) * 16 := by decide

/-- **C8 (amended)**: the page sequence enumerated by both adapters' `write`
is the ascending, contiguous sequence of pages with `start = index *
ERASE_SIZE` for the half-open index range `0, 1, ..., last_page - 1` with
`last_page = capacity / ERASE_SIZE`, and its length is exactly
`capacity / ERASE_SIZE`, the number of erase pages in the device. -/
theorem pageSeq_spec (c : FlashCfg) :
    (pageSeq c).length = c.CAPACITY / c.ERASE_SIZE ∧
    (∀ i, i < c.CAPACITY / c.ERASE_SIZE →
      (pageSeq c).getD i (Page.new 0 0) = Page.new i c.ERASE_SIZE) ∧
    List.Chain' (fun p q => q.start = p.endAddr) (pageSeq c) := by
  refine ⟨by simp [pageSeq], ?_, ?_⟩
  · intro i hi
    simp only [pageSeq, List.getD_eq_getElem?_getD, List.getElem?_map,
      List.getElem?_range hi, Option.map_some', Option.getD_some]
  · rw [pageSeq, List.chain'_map]
    have h : ∀ m : Nat,
        (Page.new (m + 1) c.ERASE_SIZE).start =
          (Page.new m c.ERASE_SIZE).endAddr := by
      intro m
      simp only [Page.new, Page.endAddr, Nat.succ_mul]
    cases hn : c.CAPACITY / c.ERASE_SIZE with
    | zero => simp
    | succ n => exact (List.chain'_range_succ _ n).mpr fun m _ => h m

/-- Witness for `pageSeq_spec` on the 64-byte, 16-byte-page device. -/
theorem pageSeq_spec_witness :
    (2 : Nat) < 64 / 16 ∧
    (pageSeq ⟨64, 4, 4, 16, 255, false⟩).getD 2 (Page.new 0 0) =
      Page.new 2 16 :=
  ⟨by decide, (pageSeq_spec ⟨64, 4, 4, 16, 255, false⟩).2.1 2 (by decide)⟩

theorem MockFlash.read_ok (c : FlashCfg) (data : List Nat)
    (offset length : Nat) (buf : List Nat)
    (h : MockFlash.read c data offset length = .ok buf) :
    buf = (data.drop offset).take length ∧ offset + length ≤ c.CAPACITY := by
  unfold MockFlash.read at h
  cases hc : check_read c.CAPACITY c.READ_SIZE offset length with
  | error e =>
    rw [hc] at h
    exact absurd h (by simp)
  | ok u =>
    rw [hc] at h
    refine ⟨by simpa using h.symm, ?_⟩
    unfold check_read check_slice at hc
    by_cases hb : (decide (length > c.CAPACITY) ||
        decide (offset > c.CAPACITY - length)) = true
    · rw [if_pos hb] at hc
      exact absurd hc (by simp)
    · simp only [Bool.or_eq_true, decide_eq_true_eq] at hb
      omega

theorem MockFlash.read_ok_length (c : FlashCfg) (data : List Nat)
    (offset length : Nat) (buf : List Nat)
    (h : MockFlash.read c data offset length = .ok buf)
    (hlen : data.length = c.CAPACITY) :
    buf.length = length := by
  obtain ⟨hbuf, hle⟩ := MockFlash.read_ok c data offset length buf h
  subst hbuf
  simp only [List.length_take, List.length_drop]
  omega

theorem MockFlash.erase_ok (c : FlashCfg) (data : List Nat)
    (fromAddr toAddr : Nat)
    (h : check_erase c.CAPACITY c.ERASE_SIZE fromAddr toAddr = .ok ()) :
    MockFlash.erase c data fromAddr toAddr =
      (splice data fromAddr (List.replicate (toAddr - fromAddr) c.ERASE_BYTE),
        none) := by
  unfold MockFlash.erase
  rw [h]

/-- **C2 counterexample**: an AND-compatible touched page on which the
adapter issues **zero** write calls, refuting "exactly one device write
call".  With `ERASE_SIZE = 16`, `WRITE_SIZE = 4`, a merge buffer of exactly
`ERASE_SIZE` bytes (accepted by the constructor), and an AND-compatible
15-byte chunk at in-page offset 1, the code computes
`aligned_end = 15 % 4 + 1 + 15 = 19` and panics at
`merge_buffer[..19]` (buffer length 16) before the write is issued. -/
theorem multiwrite_subset_c2_counterexample :
    (((List.replicate 15 0).zip ((List.replicate 16 255).drop
      (1 - (Page.new 0 16).start))).all fun p => p.1 &&& p.2 == p.1) =
      true ∧
    MockFlash.read ⟨32, 1, 4, 16, 255, true⟩ (List.replicate 32 255)
      (Page.new 0 16).start 16 = .ok (List.replicate 16 255) ∧
    (16 : Nat) ≤ 16 ∧
    rmwMultiStep ⟨32, 1, 4, 16, 255, true⟩ 16 (List.replicate 32 255)
      (List.replicate 15 0, Page.new 0 16, 1) = none :=
  ⟨by decide, by rfl, by decide, by rfl⟩

/-- **C2 (amended)**: per touched page of `RmwMultiwriteNorFlashStorage::
write`, with existing page contents `buf` (read back successfully) and
requested sub-slice `data`: if every byte of `data` ANDed with the
corresponding existing byte equals `data` (`is_subset`) **and the padded
region `data.len % WRITE_SIZE + addr % WRITE_SIZE + data.len` fits in the
merge buffer**, the adapter issues zero erase calls and exactly one device
write call; if AND-compatible but the padded region exceeds the merge
buffer, the adapter panics (`none`) issuing no device call at all for that
page; otherwise it issues exactly one erase and exactly one full-page write
of `ERASE_SIZE` bytes. -/
theorem multiwrite_subset_spec (c : FlashCfg) (merge_buffer_len : Nat)
    (flash buf data : List Nat) (page : Page) (addr : Nat)
    (hlen : flash.length = c.CAPACITY)
    (hbuf : c.ERASE_SIZE ≤ merge_buffer_len)
    (hread : MockFlash.read c flash page.start c.ERASE_SIZE = .ok buf)
    (herase : check_erase c.CAPACITY c.ERASE_SIZE page.start page.endAddr =
      .ok ()) :
    (if (data.zip (buf.drop (addr - page.start))).all
        (fun p => p.1 &&& p.2 == p.1) then
      if data.length % c.WRITE_SIZE + addr % c.WRITE_SIZE + data.length ≤
          merge_buffer_len then
        ∃ out, rmwMultiStep c merge_buffer_len flash (data, page, addr) =
            some out ∧
          (out.2.2.countP fun x => x.1.isErase) = 0 ∧
          (out.2.2.countP fun x => x.1.isWrite) = 1
      else
        rmwMultiStep c merge_buffer_len flash (data, page, addr) = none
    else
      ∃ out, rmwMultiStep c merge_buffer_len flash (data, page, addr) =
          some out ∧
        (out.2.2.countP fun x => x.1.isErase) = 1 ∧
        (out.2.2.countP fun x => x.1.isWrite) = 1 ∧
        ((out.2.2.filter fun x => x.1.isWrite).map
          fun x => x.1.writeLength) = [c.ERASE_SIZE]) := by
  have hbuflen : buf.length = c.ERASE_SIZE :=
    MockFlash.read_ok_length c flash page.start c.ERASE_SIZE buf hread hlen
  have hnot : ¬ merge_buffer_len < c.ERASE_SIZE := by omega
  by_cases hsub : ((data.zip (buf.drop (addr - page.start))).all
      (fun p => p.1 &&& p.2 == p.1)) = true
  · rw [if_pos hsub]
    by_cases hfits : data.length % c.WRITE_SIZE + addr % c.WRITE_SIZE +
        data.length ≤ merge_buffer_len
    · rw [if_pos hfits]
      cases hw : MockFlash.write c flash (addr - addr % c.WRITE_SIZE)
          (List.replicate (addr % c.WRITE_SIZE) c.ERASE_BYTE ++ data ++
            List.replicate (data.length % c.WRITE_SIZE +
              addr % c.WRITE_SIZE + data.length -
              (addr % c.WRITE_SIZE + data.length)) c.ERASE_BYTE) with
      | mk f2 e2 =>
        have hstep : rmwMultiStep c merge_buffer_len flash
            (data, page, addr) = some (f2, e2,
            [(.readOp page.start c.ERASE_SIZE, none),
             (.writeOp (addr - addr % c.WRITE_SIZE)
               (List.replicate (addr % c.WRITE_SIZE) c.ERASE_BYTE ++ data ++
                List.replicate (data.length % c.WRITE_SIZE +
                  addr % c.WRITE_SIZE + data.length -
                  (addr % c.WRITE_SIZE + data.length)) c.ERASE_BYTE),
               e2)]) := by
          simp only [rmwMultiStep, if_neg hnot, hread, hsub, if_true,
            if_pos hfits, hw]
        refine ⟨_, hstep, ?_, ?_⟩ <;>
          simp only [List.countP, List.countP.go, DevOp.isErase,
            DevOp.isWrite] <;> decide
    · rw [if_neg hfits]
      simp only [rmwMultiStep, if_neg hnot, hread, hsub, if_true,
        if_neg hfits]
  · rw [if_neg hsub]
    cases hw : MockFlash.write c
        (splice flash page.start
          (List.replicate (page.endAddr - page.start) c.ERASE_BYTE))
        page.start (splice buf (addr - page.start) data) with
    | mk f2 e2 =>
      have hsplen : (splice buf (addr - page.start) data).length =
          c.ERASE_SIZE := by
        rw [splice_length, hbuflen]
      have hstep : rmwMultiStep c merge_buffer_len flash
          (data, page, addr) = some (f2, e2,
          [(.readOp page.start c.ERASE_SIZE, none),
           (.eraseOp page.start page.endAddr, none),
           (.writeOp page.start (splice buf (addr - page.start) data),
             e2)]) := by
        simp only [rmwMultiStep, if_neg hnot, hread, hsub, if_false,
          Bool.false_eq_true,
          MockFlash.erase_ok c flash page.start page.endAddr herase, hw]
      refine ⟨_, hstep, ?_, ?_, ?_⟩
      · simp only [List.countP, List.countP.go, DevOp.isErase]
        decide
      · simp only [List.countP, List.countP.go, DevOp.isWrite]
        decide
      · simp only [List.filter, List.map, DevOp.isWrite, DevOp.writeLength,
          hsplen]

/-- Witness for `multiwrite_subset_spec`: an AND-compatible one-byte write
on an erased page, with a merge buffer of exactly `ERASE_SIZE` bytes,
issues no erase. -/
theorem multiwrite_subset_spec_witness :
    (List.replicate 32 255).length = 32 ∧ (16 : Nat) ≤ 16 ∧
    ((rmwMultiStep ⟨32, 1, 1, 16, 255, true⟩ 16 (List.replicate 32 255)
      ([7], Page.new 0 16, 0)).map fun out =>
        out.2.2.countP fun x => x.1.isErase) = some 0 := by
  refine ⟨by decide, by decide, ?_⟩
  have h := multiwrite_subset_spec ⟨32, 1, 1, 16, 255, true⟩ 16
    (List.replicate 32 255) (List.replicate 16 255) [7] (Page.new 0 16) 0
    (by decide) (by decide) (by rfl) (by rfl)
  rw [if_pos (by decide), if_pos (by decide)] at h
  obtain ⟨out, hout, h0, -⟩ := h
  rw [hout, Option.map_some', h0]

/-- **C3** (failing evidence): in the AND-compatible branch, the direct write
is issued with length `data.len() % WRITE_SIZE + offset + data.len()`, which
is **not** rounded up to `WRITE_SIZE`.  With `WRITE_SIZE = 4` and a one-byte
AND-compatible request at a word-aligned address, the issued write carries 2
bytes — not a multiple of 4 — and the device rejects it with `NotAligned`.
(`aligned_end = 2` fits the 16-byte merge buffer, so no panic occurs here.)
The padding bytes and the aligned-down address conjuncts of the claim do
hold; only the length computation contradicts the spec's "pad `data` to the
device's write granularity". -/
theorem multiwrite_padding_bug :
    ((rmwMultiStep ⟨16, 1, 4, 16, 255, true⟩ 16 (List.replicate 16 255)
        ([0], Page.new 0 16, 0)).map fun out =>
      (out.2.2.filter fun x => x.1.isWrite).map fun x => x.1.writeLength) =
      some [2] ∧
    ¬ (4 ∣ 2) ∧
    ((rmwMultiStep ⟨16, 1, 4, 16, 255, true⟩ 16 (List.replicate 16 255)
        ([0], Page.new 0 16, 0)).map fun out => out.2.1) =
      some (some .NotAligned) :=
  ⟨by rfl, by decide, by rfl⟩

/-- The result/trace discipline of a single adapter step: on success every
recorded device call succeeded; on failure the trace is a run of successful
calls followed by exactly the failing call, whose error is the one
returned. -/
def TraceFirstErr : Option NorFlashErrorKind → Trace → Prop
  | none, tr => ∀ x ∈ tr, x.2 = none
  | some e, tr => ∃ tr0 op, tr = tr0 ++ [(op, some e)] ∧ ∀ x ∈ tr0, x.2 = none

theorem rmwStep_traceFirstErr (c : FlashCfg) (flash : List Nat)
    (t : List Nat × Page × Nat) :
    TraceFirstErr (rmwStep c flash t).2.1 (rmwStep c flash t).2.2 := by
  obtain ⟨data, page, addr⟩ := t
  simp only [rmwStep]
  cases hr : MockFlash.read c flash page.start c.ERASE_SIZE with
  | error e =>
    dsimp only
    exact ⟨[], _, rfl, by simp⟩
  | ok buf =>
    cases he : MockFlash.erase c flash page.start page.endAddr with
    | mk f1 e1 =>
      cases e1 with
      | some e =>
        dsimp only
        exact ⟨[(.readOp page.start c.ERASE_SIZE, none)], _, rfl, by simp⟩
      | none =>
        cases hw : MockFlash.write c f1 page.start
            (splice buf (addr - page.start) data) with
        | mk f2 e2 =>
          cases e2 with
          | some e =>
            dsimp only
            rw [hw]
            exact ⟨[(.readOp page.start c.ERASE_SIZE, none),
              (.eraseOp page.start page.endAddr, none)], _, rfl, by simp⟩
          | none =>
            dsimp only
            rw [hw]
            intro x hx
            simp at hx
            rcases hx with rfl | rfl | rfl <;> rfl

theorem rmwMultiStep_traceFirstErr (c : FlashCfg) (merge_buffer_len : Nat)
    (flash : List Nat) (t : List Nat × Page × Nat)
    (out : List Nat × Option NorFlashErrorKind × Trace)
    (h : rmwMultiStep c merge_buffer_len flash t = some out) :
    TraceFirstErr out.2.1 out.2.2 := by
  obtain ⟨data, page, addr⟩ := t
  simp only [rmwMultiStep] at h
  by_cases hmb : merge_buffer_len < c.ERASE_SIZE
  · rw [if_pos hmb] at h
    exact absurd h (by simp)
  · rw [if_neg hmb] at h
    cases hr : MockFlash.read c flash page.start c.ERASE_SIZE with
    | error e =>
      rw [hr] at h
      dsimp only at h
      obtain rfl := Option.some.inj h
      exact ⟨[], _, rfl, by simp⟩
    | ok buf =>
      rw [hr] at h
      dsimp only at h
      by_cases hsub : ((data.zip (buf.drop (addr - page.start))).all
          (fun p => p.1 &&& p.2 == p.1)) = true
      · rw [if_pos hsub] at h
        by_cases hfits : data.length % c.WRITE_SIZE + addr % c.WRITE_SIZE +
            data.length ≤ merge_buffer_len
        · rw [if_pos hfits] at h
          cases hw : MockFlash.write c flash (addr - addr % c.WRITE_SIZE)
              (List.replicate (addr % c.WRITE_SIZE) c.ERASE_BYTE ++ data ++
                List.replicate (data.length % c.WRITE_SIZE +
                  addr % c.WRITE_SIZE + data.length -
                  (addr % c.WRITE_SIZE + data.length)) c.ERASE_BYTE) with
          | mk f2 e2 =>
            rw [hw] at h
            dsimp only at h
            obtain rfl := Option.some.inj h
            cases e2 with
            | some e =>
              exact ⟨[(.readOp page.start c.ERASE_SIZE, none)], _, rfl,
                by simp⟩
            | none =>
              intro x hx
              simp at hx
              rcases hx with rfl | rfl <;> rfl
        · rw [if_neg hfits] at h
          exact absurd h (by simp)
      · rw [if_neg hsub] at h
        cases he : MockFlash.erase c flash page.start page.endAddr with
        | mk f1 e1 =>
          rw [he] at h
          cases e1 with
          | some e =>
            dsimp only at h
            obtain rfl := Option.some.inj h
            exact ⟨[(.readOp page.start c.ERASE_SIZE, none)], _, rfl,
              by simp⟩
          | none =>
            dsimp only at h
            cases hw : MockFlash.write c f1 page.start
                (splice buf (addr - page.start) data) with
            | mk f2 e2 =>
              rw [hw] at h
              dsimp only at h
              obtain rfl := Option.some.inj h
              cases e2 with
              | some e =>
                exact ⟨[(.readOp page.start c.ERASE_SIZE, none),
                  (.eraseOp page.start page.endAddr, none)], _, rfl,
                  by simp⟩
              | none =>
                intro x hx
                simp at hx
                rcases hx with rfl | rfl | rfl <;> rfl

theorem runPages_traceFirstErr
    (step : List Nat → List Nat × Page × Nat →
      List Nat × Option NorFlashErrorKind × Trace)
    (hstep : ∀ flash t, TraceFirstErr (step flash t).2.1 (step flash t).2.2)
    (ts : List (List Nat × Page × Nat)) (flash : List Nat) :
    TraceFirstErr (runPages step ts flash).2.1
      (runPages step ts flash).2.2 := by
  induction ts generalizing flash with
  | nil =>
    intro x hx
    simp [runPages] at hx
  | cons t ts ih =>
    simp only [runPages]
    cases hs : step flash t with
    | mk f1 rest =>
      obtain ⟨r1, tr1⟩ := rest
      cases r1 with
      | some e =>
        have h := hstep flash t
        rw [hs] at h
        exact h
      | none =>
        have h1 := hstep flash t
        rw [hs] at h1
        dsimp only
        cases hrec : runPages step ts f1 with
        | mk f2 rest2 =>
          obtain ⟨r2, tr2⟩ := rest2
          have h2 := ih f1
          rw [hrec] at h2
          cases r2 with
          | some e =>
            obtain ⟨tr0, op, htr, hall⟩ := h2
            refine ⟨tr1 ++ tr0, op, by rw [htr, List.append_assoc], ?_⟩
            intro x hx
            rcases List.mem_append.mp hx with h | h
            · exact h1 x h
            · exact hall x h
          | none =>
            intro x hx
            rcases List.mem_append.mp hx with h | h
            · exact h1 x h
            · exact h2 x h

theorem runPages_prefix_err
    (step : List Nat → List Nat × Page × Nat →
      List Nat × Option NorFlashErrorKind × Trace)
    (ts1 ts2 : List (List Nat × Page × Nat)) (t : List Nat × Page × Nat)
    (flash f1 f2 : List Nat) (e : NorFlashErrorKind) (tr1 trt : Trace)
    (h1 : runPages step ts1 flash = (f1, none, tr1))
    (h2 : step f1 t = (f2, some e, trt)) :
    runPages step (ts1 ++ t :: ts2) flash = (f2, some e, tr1 ++ trt) := by
  induction ts1 generalizing flash tr1 with
  | nil =>
    simp only [runPages] at h1
    have hf : flash = f1 := congrArg Prod.fst h1
    have ht : ([] : Trace) = tr1 := congrArg (fun p => p.2.2) h1
    subst hf
    rw [← ht]
    simp only [List.nil_append, runPages, h2]
  | cons t1 ts1 ih =>
    simp only [runPages] at h1 ⊢
    cases hs : step flash t1 with
    | mk g1 rest =>
      obtain ⟨r1, trs⟩ := rest
      cases r1 with
      | some e1 =>
        rw [hs] at h1
        exact absurd (congrArg (fun p => p.2.1) h1) (by simp)
      | none =>
        rw [hs] at h1
        dsimp only at h1
        cases hrec : runPages step ts1 g1 with
        | mk g2 rest2 =>
          obtain ⟨r2, tr2⟩ := rest2
          rw [hrec] at h1
          dsimp only at h1
          have hf : g2 = f1 := congrArg Prod.fst h1
          have hr : r2 = none := congrArg (fun p => p.2.1) h1
          have htr : trs ++ tr2 = tr1 := congrArg (fun p => p.2.2) h1
          subst hf hr
          have hih := ih g1 tr2 hrec
          dsimp only
          simp only [List.append_eq]
          rw [hih]
          dsimp only
          rw [← htr, List.append_assoc]

theorem runPagesP_traceFirstErr
    (step : List Nat → List Nat × Page × Nat →
      Option (List Nat × Option NorFlashErrorKind × Trace))
    (hstep : ∀ flash t out, step flash t = some out →
      TraceFirstErr out.2.1 out.2.2)
    (ts : List (List Nat × Page × Nat)) (flash : List Nat)
    (out : List Nat × Option NorFlashErrorKind × Trace)
    (h : runPagesP step ts flash = some out) :
    TraceFirstErr out.2.1 out.2.2 := by
  induction ts generalizing flash out with
  | nil =>
    simp only [runPagesP] at h
    obtain rfl := Option.some.inj h
    intro x hx
    simp at hx
  | cons t ts ih =>
    simp only [runPagesP] at h
    cases hs : step flash t with
    | none =>
      rw [hs] at h
      exact absurd h (by simp)
    | some res =>
      obtain ⟨f1, r1, tr1⟩ := res
      rw [hs] at h
      cases r1 with
      | some e =>
        dsimp only at h
        obtain rfl := Option.some.inj h
        exact hstep flash t _ hs
      | none =>
        dsimp only at h
        cases hrec : runPagesP step ts f1 with
        | none =>
          rw [hrec] at h
          exact absurd h (by simp)
        | some res2 =>
          obtain ⟨f2, r2, tr2⟩ := res2
          rw [hrec] at h
          dsimp only at h
          obtain rfl := Option.some.inj h
          have h1 := hstep flash t _ hs
          have h2 := ih f1 _ hrec
          cases r2 with
          | some e =>
            obtain ⟨tr0, op, htr, hall⟩ := h2
            refine ⟨tr1 ++ tr0, op, ?_, ?_⟩
            · have htr2 : tr2 = tr0 ++ [(op, some e)] := htr
              show tr1 ++ tr2 = tr1 ++ tr0 ++ [(op, some e)]
              rw [htr2, List.append_assoc]
            · intro x hx
              rcases List.mem_append.mp hx with hx1 | hx2
              · exact h1 x hx1
              · exact hall x hx2
          | none =>
            intro x hx
            rcases List.mem_append.mp hx with hx1 | hx2
            · exact h1 x hx1
            · exact h2 x hx2

theorem runPagesP_prefix_err
    (step : List Nat → List Nat × Page × Nat →
      Option (List Nat × Option NorFlashErrorKind × Trace))
    (ts1 ts2 : List (List Nat × Page × Nat)) (t : List Nat × Page × Nat)
    (flash f1 f2 : List Nat) (e : NorFlashErrorKind) (tr1 trt : Trace)
    (h1 : runPagesP step ts1 flash = some (f1, none, tr1))
    (h2 : step f1 t = some (f2, some e, trt)) :
    runPagesP step (ts1 ++ t :: ts2) flash = some (f2, some e, tr1 ++ trt) := by
  induction ts1 generalizing flash tr1 with
  | nil =>
    simp only [runPagesP] at h1
    have heq := Option.some.inj h1
    have hf : flash = f1 := congrArg Prod.fst heq
    have ht : ([] : Trace) = tr1 := congrArg (fun p => p.2.2) heq
    subst hf
    rw [← ht]
    simp only [List.nil_append, runPagesP, h2]
  | cons t1 ts1 ih =>
    simp only [runPagesP] at h1 ⊢
    cases hs : step flash t1 with
    | none =>
      rw [hs] at h1
      exact absurd h1 (by simp)
    | some res =>
      obtain ⟨g1, r1, trs⟩ := res
      rw [hs] at h1
      cases r1 with
      | some e1 =>
        dsimp only at h1
        have heq := Option.some.inj h1
        exact absurd (congrArg (fun p => p.2.1) heq) (by simp)
      | none =>
        dsimp only at h1
        cases hrec : runPagesP step ts1 g1 with
        | none =>
          rw [hrec] at h1
          exact absurd h1 (by simp)
        | some res2 =>
          obtain ⟨g2, r2, tr2⟩ := res2
          rw [hrec] at h1
          dsimp only at h1
          have heq := Option.some.inj h1
          have hf : g2 = f1 := congrArg Prod.fst heq
          have hr : r2 = none := congrArg (fun p => p.2.1) heq
          have htr : trs ++ tr2 = tr1 := congrArg (fun p => p.2.2) heq
          subst hf hr
          have hih := ih g1 tr2 hrec
          dsimp only
          simp only [List.append_eq]
          rw [hih]
          dsimp only
          rw [← htr, List.append_assoc]

/-- **C6**: for both adapters' `write`, the first error returned by any device
read/erase/write call is propagated unchanged and aborts the remaining pages.
Conjuncts 1–2: whenever a run over decomposition triples returns `some e`
(for the multiwrite adapter: any merge-buffer length, a non-panicking run),
its device-call trace consists of successful calls followed by exactly the
failing call, whose recorded result is that same `e`, with no further calls
after it.  Conjuncts 3–4: if the pages before some triple `t` complete
successfully and the step for `t` fails with `e`, the whole `write` returns
`e`, issues no device operation for the remaining pages `ts2`, and keeps the
device state produced by the completed pages (no rollback). -/
theorem rmw_error_propagation (c : FlashCfg) :
    (∀ flash ts f e tr,
      runPages (rmwStep c) ts flash = (f, some e, tr) →
      ∃ tr0 op, tr = tr0 ++ [(op, some e)] ∧ ∀ x ∈ tr0, x.2 = none) ∧
    (∀ merge_buffer_len flash ts f e tr,
      runPagesP (rmwMultiStep c merge_buffer_len) ts flash =
        some (f, some e, tr) →
      ∃ tr0 op, tr = tr0 ++ [(op, some e)] ∧ ∀ x ∈ tr0, x.2 = none) ∧
    (∀ ts1 t ts2 flash f1 f2 e tr1 trt,
      runPages (rmwStep c) ts1 flash = (f1, none, tr1) →
      rmwStep c f1 t = (f2, some e, trt) →
      runPages (rmwStep c) (ts1 ++ t :: ts2) flash =
        (f2, some e, tr1 ++ trt)) ∧
    (∀ merge_buffer_len ts1 t ts2 flash f1 f2 e tr1 trt,
      runPagesP (rmwMultiStep c merge_buffer_len) ts1 flash =
        some (f1, none, tr1) →
      rmwMultiStep c merge_buffer_len f1 t = some (f2, some e, trt) →
      runPagesP (rmwMultiStep c merge_buffer_len) (ts1 ++ t :: ts2) flash =
        some (f2, some e, tr1 ++ trt)) := by
  refine ⟨?_, ?_, ?_, ?_⟩
  · intro flash ts f e tr h
    have ht := runPages_traceFirstErr (rmwStep c)
      (rmwStep_traceFirstErr c) ts flash
    rw [h] at ht
    exact ht
  · intro merge_buffer_len flash ts f e tr h
    exact runPagesP_traceFirstErr (rmwMultiStep c merge_buffer_len)
      (fun fl t out hout =>
        rmwMultiStep_traceFirstErr c merge_buffer_len fl t out hout)
      ts flash (f, some e, tr) h
  · intro ts1 t ts2 flash f1 f2 e tr1 trt h1 h2
    exact runPages_prefix_err (rmwStep c) ts1 ts2 t flash f1 f2 e tr1 trt h1 h2
  · intro merge_buffer_len ts1 t ts2 flash f1 f2 e tr1 trt h1 h2
    exact runPagesP_prefix_err (rmwMultiStep c merge_buffer_len) ts1 ts2 t
      flash f1 f2 e tr1 trt h1 h2

/-- Witness for `rmw_error_propagation`: one successful page followed by an
out-of-bounds page; the `OutOfBounds` error of the second page's read is
returned and the successful page's state stands. -/
theorem rmw_error_propagation_witness :
    runPages (rmwStep ⟨16, 1, 1, 16, 255, false⟩)
        [([7], Page.new 0 16, 0)] (List.replicate 16 255) =
      ((runPages (rmwStep ⟨16, 1, 1, 16, 255, false⟩)
        [([7], Page.new 0 16, 0)] (List.replicate 16 255)).1, none,
       (runPages (rmwStep ⟨16, 1, 1, 16, 255, false⟩)
        [([7], Page.new 0 16, 0)] (List.replicate 16 255)).2.2) ∧
    rmwStep ⟨16, 1, 1, 16, 255, false⟩
        (runPages (rmwStep ⟨16, 1, 1, 16, 255, false⟩)
          [([7], Page.new 0 16, 0)] (List.replicate 16 255)).1
        ([7], Page.new 1 16, 16) =
      ((rmwStep ⟨16, 1, 1, 16, 255, false⟩
        (runPages (rmwStep ⟨16, 1, 1, 16, 255, false⟩)
          [([7], Page.new 0 16, 0)] (List.replicate 16 255)).1
        ([7], Page.new 1 16, 16)).1, some .OutOfBounds,
       (rmwStep ⟨16, 1, 1, 16, 255, false⟩
        (runPages (rmwStep ⟨16, 1, 1, 16, 255, false⟩)
          [([7], Page.new 0 16, 0)] (List.replicate 16 255)).1
        ([7], Page.new 1 16, 16)).2.2) ∧
    runPages (rmwStep ⟨16, 1, 1, 16, 255, false⟩)
        ([([7], Page.new 0 16, 0)] ++ ([7], Page.new 1 16, 16) :: [])
        (List.replicate 16 255) =
      ((rmwStep ⟨16, 1, 1, 16, 255, false⟩
        (runPages (rmwStep ⟨16, 1, 1, 16, 255, false⟩)
          [([7], Page.new 0 16, 0)] (List.replicate 16 255)).1
        ([7], Page.new 1 16, 16)).1, some .OutOfBounds,
       (runPages (rmwStep ⟨16, 1, 1, 16, 255, false⟩)
        [([7], Page.new 0 16, 0)] (List.replicate 16 255)).2.2 ++
       (rmwStep ⟨16, 1, 1, 16, 255, false⟩
        (runPages (rmwStep ⟨16, 1, 1, 16, 255, false⟩)
          [([7], Page.new 0 16, 0)] (List.replicate 16 255)).1
        ([7], Page.new 1 16, 16)).2.2) := by
  refine ⟨rfl, rfl, ?_⟩
  exact (rmw_error_propagation ⟨16, 1, 1, 16, 255, false⟩).2.2.1
    [([7], Page.new 0 16, 0)] ([7], Page.new 1 16, 16) []
    (List.replicate 16 255) _ _ _ _ _ rfl rfl

/-- The decomposition triple the overlap iterator produces for page index `i`:
the clamped intersection of page `i` with the request window. -/
def chunkAt (bytes : List Nat) (offset size i : Nat) : List Nat × Page × Nat :=
  ((bytes.drop (max (i * size) offset - offset)).take
    (min (i * size + size) (offset + bytes.length) - max (i * size) offset),
   Page.new i size, max (i * size) offset)

theorem overlaps_nil_bytes (pages : List Page) (offset : Nat) :
    overlaps pages [] offset = [] := by
  induction pages with
  | nil => rfl
  | cons p ps ih =>
    simp only [overlaps, List.filterMap_cons] at ih ⊢
    have hne : ¬ max p.start offset <
        min p.endAddr (offset + ([] : List Nat).length) := by
      simp only [List.length_nil]
      omega
    rw [if_neg hne]
    exact ih


theorem overlaps_cons (p : Page) (ps : List Page) (bytes : List Nat)
    (offset : Nat) :
    overlaps (p :: ps) bytes offset =
      if max p.start offset < min p.endAddr (offset + bytes.length) then
        ((bytes.drop (max p.start offset - offset)).take
          (min p.endAddr (offset + bytes.length) - max p.start offset),
         p, max p.start offset) :: overlaps ps bytes offset
      else overlaps ps bytes offset := by
  simp only [overlaps, List.filterMap_cons]
  by_cases h : max p.start offset < min p.endAddr (offset + bytes.length)
  · rw [if_pos h, if_pos h]
  · rw [if_neg h, if_neg h]

theorem overlaps_eq_range (size offset : Nat) (bytes : List Nat)
    (hsize : 0 < size) (hL : 0 < bytes.length) :
    ∀ m k, overlaps ((List.range' k m).map fun i => Page.new i size)
        bytes offset =
      (List.range' (max k (offset / size))
        (min (k + m) ((offset + bytes.length + size - 1) / size) -
          max k (offset / size))).map (chunkAt bytes offset size) := by
  intro m
  induction m with
  | zero =>
    intro k
    have h0 : min (k + 0) ((offset + bytes.length + size - 1) / size) -
        max k (offset / size) = 0 := by omega
    rw [h0]
    simp [overlaps]
  | succ m ih =>
    intro k
    have hF1 : offset / size ≤ k ↔ offset < k * size + size := by
      rw [← Nat.lt_succ_iff, Nat.div_lt_iff_lt_mul hsize, Nat.succ_mul]
    have hF2 : k < (offset + bytes.length + size - 1) / size ↔
        k * size < offset + bytes.length := by
      rw [show (k < (offset + bytes.length + size - 1) / size) ↔
        (k + 1 ≤ (offset + bytes.length + size - 1) / size) from Iff.rfl,
        Nat.le_div_iff_mul_le hsize, Nat.succ_mul]
      omega
    rw [List.range'_succ, List.map_cons, overlaps_cons]
    by_cases hc : max (Page.new k size).start offset <
        min (Page.new k size).endAddr (offset + bytes.length)
    · rw [if_pos hc]
      have hc' : max (k * size) offset <
          min (k * size + size) (offset + bytes.length) := by
        simpa [Page.new, Page.endAddr] using hc
      have hk0 : offset / size ≤ k := by
        rw [hF1]
        omega
      have hk1 : k < (offset + bytes.length + size - 1) / size := by
        rw [hF2]
        omega
      have hmax : max k (offset / size) = k := by omega
      rw [hmax]
      have hcnt : min (k + (m + 1))
          ((offset + bytes.length + size - 1) / size) - k =
          (min (k + 1 + m) ((offset + bytes.length + size - 1) / size) -
            (k + 1)) + 1 := by omega
      rw [hcnt, List.range'_succ, List.map_cons]
      have htail := ih (k + 1)
      have hmax' : max (k + 1) (offset / size) = k + 1 := by omega
      rw [hmax'] at htail
      rw [htail]
      congr 1
    · rw [if_neg hc]
      have hc' : ¬ max (k * size) offset <
          min (k * size + size) (offset + bytes.length) := by
        simpa [Page.new, Page.endAddr] using hc
      rw [ih (k + 1)]
      have hsplit : k + 1 ≤ offset / size ∨
          (offset + bytes.length + size - 1) / size ≤ k := by omega
      rcases hsplit with hs | hs
      · have hA : max (k + 1) (offset / size) = max k (offset / size) := by
          omega
        have hcnt2 : min (k + 1 + m)
            ((offset + bytes.length + size - 1) / size) =
            min (k + (m + 1))
              ((offset + bytes.length + size - 1) / size) := by omega
        rw [hA, hcnt2]
      · have hz1 : min (k + 1 + m)
            ((offset + bytes.length + size - 1) / size) -
            max (k + 1) (offset / size) = 0 := by omega
        have hz2 : min (k + (m + 1))
            ((offset + bytes.length + size - 1) / size) -
            max k (offset / size) = 0 := by omega
        rw [hz1, hz2]
        simp only [List.range'_zero, List.map_nil]

theorem overlaps_map_page (pages : List Page) (bytes : List Nat)
    (offset : Nat) :
    (overlaps pages bytes offset).map (fun t => t.2.1) =
      pages.filter fun p =>
        decide (max p.start offset < min p.endAddr (offset + bytes.length)) := by
  induction pages with
  | nil => rfl
  | cons p ps ih =>
    rw [overlaps_cons, List.filter_cons]
    by_cases h : max p.start offset < min p.endAddr (offset + bytes.length)
    · rw [if_pos h, if_pos (by simpa using h), List.map_cons, ih]
    · rw [if_neg h, if_neg (by simpa using h), ih]

theorem chunks_flatten (size offset : Nat) (bytes : List Nat)
    (hsize : 0 < size) :
    ∀ n j, offset / size ≤ j →
      ((((List.range' j n).map (chunkAt bytes offset size)).map
        fun t => t.1).flatten) =
      (bytes.drop (max (j * size) offset - offset)).take
        (min ((j + n) * size) (offset + bytes.length) -
          max (j * size) offset) := by
  intro n
  induction n with
  | zero =>
    intro j _
    have hm : (j + 0) * size = j * size := by ring
    have h0 : min ((j + 0) * size) (offset + bytes.length) -
        max (j * size) offset = 0 := by
      rw [hm]
      omega
    rw [h0]
    simp
  | succ n ih =>
    intro j hj
    have hmod := Nat.div_add_mod offset size
    have hlt := Nat.mod_lt offset hsize
    have hmul : (offset / size + 1) * size ≤ (j + 1) * size :=
      Nat.mul_le_mul_right size (by omega)
    have hmul' : (offset / size + 1) * size =
        size * (offset / size) + size := by ring
    have hoj : offset < (j + 1) * size := by omega
    have m1 : (j + 1) * size = j * size + size := by ring
    have m2 : (j + 1 + n) * size = (j + 1) * size + n * size := by ring
    have m3 : (j + (n + 1)) * size = (j + 1 + n) * size := by ring
    have hs' : max ((j + 1) * size) offset = (j + 1) * size := by omega
    rw [List.range'_succ, List.map_cons, List.map_cons, List.flatten_cons]
    have htail := ih (j + 1) (by omega)
    rw [hs'] at htail
    rw [htail]
    simp only [chunkAt]
    by_cases hcase : j * size + size ≤ offset + bytes.length
    · have hsum : min ((j + (n + 1)) * size) (offset + bytes.length) -
          max (j * size) offset =
          (min (j * size + size) (offset + bytes.length) -
            max (j * size) offset) +
          (min ((j + 1 + n) * size) (offset + bytes.length) -
            (j + 1) * size) := by omega
      rw [hsum, List.take_add]
      congr 1
      rw [List.drop_drop]
      have hidx : max (j * size) offset - offset +
          (min (j * size + size) (offset + bytes.length) -
            max (j * size) offset) = (j + 1) * size - offset := by omega
      rw [hidx]
    · have htail0 : min ((j + 1 + n) * size) (offset + bytes.length) -
          (j + 1) * size = 0 := by omega
      have hsum : min ((j + (n + 1)) * size) (offset + bytes.length) -
          max (j * size) offset =
          min (j * size + size) (offset + bytes.length) -
            max (j * size) offset := by omega
      rw [htail0, hsum]
      simp

theorem chunks_chain (size offset : Nat) (bytes : List Nat)
    (hsize : 0 < size) :
    ∀ n j, offset / size ≤ j →
      j + n ≤ (offset + bytes.length + size - 1) / size →
      List.Chain' (fun t u : List Nat × Page × Nat =>
        t.2.2 < u.2.2 ∧ t.2.2 + t.1.length = u.2.2 ∧ u.2.2 = u.2.1.start)
        ((List.range' j n).map (chunkAt bytes offset size)) := by
  intro n
  induction n with
  | zero =>
    intro j _ _
    simp
  | succ n ih =>
    intro j hj hub
    cases n with
    | zero => simp [List.chain'_singleton]
    | succ n =>
      rw [List.range'_succ, List.map_cons, List.range'_succ, List.map_cons,
        List.chain'_cons]
      constructor
      · have hmod := Nat.div_add_mod offset size
        have hlt := Nat.mod_lt offset hsize
        have hmul : (offset / size + 1) * size ≤ (j + 1) * size :=
          Nat.mul_le_mul_right size (by omega)
        have hmul' : (offset / size + 1) * size =
            size * (offset / size) + size := by ring
        have hoj : offset < (j + 1) * size := by omega
        have hiub : (j + 1) * size < offset + bytes.length := by
          have h2 : j + 2 ≤ (offset + bytes.length + size - 1) / size := by
            omega
          rw [Nat.le_div_iff_mul_le hsize] at h2
          have : (j + 2) * size = (j + 1) * size + size := by ring
          omega
        have m1 : (j + 1) * size = j * size + size := by ring
        refine ⟨?_, ?_, ?_⟩
        · simp only [chunkAt]
          omega
        · simp only [chunkAt, List.length_take, List.length_drop]
          omega
        · simp only [chunkAt, Page.new]
          omega
      · rw [← List.map_cons, ← List.range'_succ]
        exact ih (j + 1) (by omega) (by omega)

/-- **C7**: for every in-bounds request, the decomposition over the device's
page sequence yields one triple per page whose range intersects
`[offset, offset + len)` (in ascending page order, each page exactly once:
conjunct 2); concatenating the yielded `data` slices in yield order
reproduces `bytes` exactly (conjunct 1); the yielded `addr` values are
strictly ascending and contiguous with the page geometry: each next triple
starts where the previous data ended and at its own page's start (conjunct
3); every yielded slice is non-empty (conjunct 4). -/
theorem overlap_decomposition_spec (c : FlashCfg) (bytes : List Nat)
    (offset : Nat) (hES : 0 < c.ERASE_SIZE)
    (hdiv : c.ERASE_SIZE ∣ c.CAPACITY)
    (hbound : offset + bytes.length ≤ c.CAPACITY) :
    ((overlaps (pageSeq c) bytes offset).map fun t => t.1).flatten = bytes ∧
    ((overlaps (pageSeq c) bytes offset).map fun t => t.2.1) =
      ((pageSeq c).filter fun p =>
        decide (max p.start offset <
          min p.endAddr (offset + bytes.length))) ∧
    List.Chain' (fun t u => t.2.2 < u.2.2 ∧ t.2.2 + t.1.length = u.2.2 ∧
      u.2.2 = u.2.1.start) (overlaps (pageSeq c) bytes offset) ∧
    ∀ t ∈ overlaps (pageSeq c) bytes offset, t.1.length ≠ 0 := by
  refine ⟨?_, overlaps_map_page _ _ _, ?_, ?_⟩ <;>
    by_cases hL0 : bytes.length = 0
  case pos =>
    have hnil : bytes = [] := List.length_eq_zero.mp hL0
    subst hnil
    rw [overlaps_nil_bytes]
    rfl
  case pos =>
    have hnil : bytes = [] := List.length_eq_zero.mp hL0
    subst hnil
    rw [overlaps_nil_bytes]
    simp
  case pos =>
    have hnil : bytes = [] := List.length_eq_zero.mp hL0
    subst hnil
    rw [overlaps_nil_bytes]
    simp
  all_goals
    have hL : 0 < bytes.length := Nat.pos_of_ne_zero hL0
  all_goals
    obtain ⟨q, hq⟩ := hdiv
  all_goals
    have hm : c.CAPACITY / c.ERASE_SIZE = q := by
      rw [hq]
      exact Nat.mul_div_cancel_left q hES
  all_goals
    have hps : pageSeq c = (List.range' 0 (c.CAPACITY / c.ERASE_SIZE)).map
        fun i => Page.new i c.ERASE_SIZE := by
      rw [pageSeq, List.range_eq_range']
  all_goals
    have hi1 : (offset + bytes.length + c.ERASE_SIZE - 1) / c.ERASE_SIZE ≤
        q := by
      have h1 : (offset + bytes.length + c.ERASE_SIZE - 1) / c.ERASE_SIZE <
          q + 1 := by
        rw [Nat.div_lt_iff_lt_mul hES]
        have h2 : (q + 1) * c.ERASE_SIZE =
            c.ERASE_SIZE * q + c.ERASE_SIZE := by ring
        omega
      omega
  all_goals
    have hteq := overlaps_eq_range c.ERASE_SIZE offset bytes hES hL
      (c.CAPACITY / c.ERASE_SIZE) 0
  all_goals
    rw [Nat.zero_max] at hteq
  all_goals
    have hmin : min (0 + c.CAPACITY / c.ERASE_SIZE)
        ((offset + bytes.length + c.ERASE_SIZE - 1) / c.ERASE_SIZE) =
        (offset + bytes.length + c.ERASE_SIZE - 1) / c.ERASE_SIZE := by
      omega
  all_goals
    rw [hmin] at hteq
  all_goals
    have hi0le : offset / c.ERASE_SIZE ≤
        (offset + bytes.length + c.ERASE_SIZE - 1) / c.ERASE_SIZE :=
      Nat.div_le_div_right (by omega)
  all_goals
    have hceil : offset + bytes.length ≤
        ((offset + bytes.length + c.ERASE_SIZE - 1) / c.ERASE_SIZE) *
          c.ERASE_SIZE := by
      have hdm := Nat.div_add_mod
        (offset + bytes.length + c.ERASE_SIZE - 1) c.ERASE_SIZE
      have hml := Nat.mod_lt
        (offset + bytes.length + c.ERASE_SIZE - 1) hES
      have hcomm : ((offset + bytes.length + c.ERASE_SIZE - 1) /
          c.ERASE_SIZE) * c.ERASE_SIZE = c.ERASE_SIZE *
          ((offset + bytes.length + c.ERASE_SIZE - 1) / c.ERASE_SIZE) := by
        ring
      omega
  all_goals
    have hfloor : (offset / c.ERASE_SIZE) * c.ERASE_SIZE ≤ offset :=
      Nat.div_mul_le_self offset c.ERASE_SIZE
  case neg =>
    rw [hps, hteq, chunks_flatten c.ERASE_SIZE offset bytes hES _ _
      (le_refl _)]
    have h1 : max ((offset / c.ERASE_SIZE) * c.ERASE_SIZE) offset =
        offset := by omega
    have h2 : offset / c.ERASE_SIZE +
        ((offset + bytes.length + c.ERASE_SIZE - 1) / c.ERASE_SIZE -
          offset / c.ERASE_SIZE) =
        (offset + bytes.length + c.ERASE_SIZE - 1) / c.ERASE_SIZE := by
      omega
    rw [h1, h2]
    have h3 : min (((offset + bytes.length + c.ERASE_SIZE - 1) /
        c.ERASE_SIZE) * c.ERASE_SIZE) (offset + bytes.length) =
        offset + bytes.length := by omega
    rw [h3]
    have h4 : offset - offset = 0 := by omega
    have h5 : offset + bytes.length - offset = bytes.length := by omega
    rw [h4, h5, List.drop_zero, List.take_length]
  case neg =>
    rw [hps, hteq]
    exact chunks_chain c.ERASE_SIZE offset bytes hES _ _ (le_refl _)
      (by omega)
  case neg =>
    rw [hps, hteq]
    intro t ht
    obtain ⟨i, hi, rfl⟩ := List.mem_map.mp ht
    rw [List.mem_range'_1] at hi
    have hoj : offset < (i + 1) * c.ERASE_SIZE := by
      have hmod := Nat.div_add_mod offset c.ERASE_SIZE
      have hlt := Nat.mod_lt offset hES
      have hmul : (offset / c.ERASE_SIZE + 1) * c.ERASE_SIZE ≤
          (i + 1) * c.ERASE_SIZE :=
        Nat.mul_le_mul_right c.ERASE_SIZE (by omega)
      have hmul' : (offset / c.ERASE_SIZE + 1) * c.ERASE_SIZE =
          c.ERASE_SIZE * (offset / c.ERASE_SIZE) + c.ERASE_SIZE := by ring
      omega
    have hil : i * c.ERASE_SIZE < offset + bytes.length := by
      have h1 : i + 1 ≤ (offset + bytes.length + c.ERASE_SIZE - 1) /
          c.ERASE_SIZE := by omega
      rw [Nat.le_div_iff_mul_le hES] at h1
      have h2 : (i + 1) * c.ERASE_SIZE = i * c.ERASE_SIZE +
          c.ERASE_SIZE := by ring
      omega
    have m1 : (i + 1) * c.ERASE_SIZE = i * c.ERASE_SIZE +
        c.ERASE_SIZE := by ring
    simp only [chunkAt, List.length_take, List.length_drop]
    omega

/-- Witness for `overlap_decomposition_spec`: the spec's worked example — a
5-byte write at offset 12 on a 64-byte device with 16-byte pages. -/
theorem overlap_decomposition_spec_witness :
    0 < 16 ∧ (16 : Nat) ∣ 64 ∧
    12 + ([1, 2, 3, 4, 5] : List Nat).length ≤ 64 ∧
    ((overlaps (pageSeq ⟨64, 4, 4, 16, 255, false⟩) [1, 2, 3, 4, 5] 12).map
      fun t => t.1).flatten = [1, 2, 3, 4, 5] :=
  ⟨by decide, by decide, by decide,
    (overlap_decomposition_spec ⟨64, 4, 4, 16, 255, false⟩ [1, 2, 3, 4, 5] 12
      (by decide) (by decide) (by decide)).1⟩

theorem slice_getD (flash : List Nat) (s n j : Nat) (hj : j < n) :
    ((flash.drop s).take n).getD j 0 = flash.getD (s + j) 0 := by
  rw [List.getD_eq_getElem?_getD, List.getElem?_take_of_lt hj,
    List.getElem?_drop, List.getD_eq_getElem?_getD]

theorem MockFlash.writeLoop_ok (c : FlashCfg) :
    ∀ (srcs data : List Nat) (i : Nat) (data' : List Nat),
      MockFlash.writeLoop c data i srcs = (data', none) →
      data'.length = data.length ∧
      ∀ a, data'.getD a 0 =
        if i ≤ a ∧ a < i + srcs.length then srcs.getD (a - i) 0
        else data.getD a 0 := by
  intro srcs
  induction srcs with
  | nil =>
    intro data i data' h
    simp only [MockFlash.writeLoop] at h
    have hd : data = data' := congrArg Prod.fst h
    subst hd
    refine ⟨rfl, fun a => ?_⟩
    rw [if_neg (by simp)]
  | cons src rest ih =>
    intro data i data' h
    simp only [MockFlash.writeLoop] at h
    by_cases h1 : (!c.MULTI_WRITE && data.getD i 0 != c.ERASE_BYTE) = true
    · rw [if_pos h1] at h
      exact absurd (congrArg Prod.snd h) (by simp)
    · rw [if_neg h1] at h
      by_cases h2 : (src != (data.getD i 0 &&& src)) = true
      · rw [if_pos h2] at h
        exact absurd (congrArg Prod.snd h) (by simp)
      · rw [if_neg h2] at h
        have hsrc : src = data.getD i 0 &&& src := by
          simpa [bne_iff_ne] using h2
        obtain ⟨hlen, hpt⟩ :=
          ih (data.set i (data.getD i 0 &&& src)) (i + 1) data' h
        refine ⟨by rw [hlen, List.length_set], fun a => ?_⟩
        rw [hpt a]
        by_cases ha : i + 1 ≤ a ∧ a < i + 1 + rest.length
        · rw [if_pos ha, if_pos (by simp only [List.length_cons]; omega)]
          have hsub : a - i = (a - (i + 1)) + 1 := by omega
          rw [hsub, List.getD_cons_succ]
        · rw [if_neg ha, List.getD_eq_getElem?_getD, List.getElem?_set]
          by_cases hia : i = a
          · subst hia
            rw [if_pos rfl,
              if_pos (⟨le_refl i, by simp only [List.length_cons]; omega⟩ :
                i ≤ i ∧ i < i + (src :: rest).length)]
            simp only [Nat.sub_self, List.getD_cons_zero]
            by_cases hl : i < data.length
            · rw [if_pos hl]
              simpa using hsrc.symm
            · rw [if_neg hl]
              have hd0 : data.getD i 0 = 0 :=
                List.getD_eq_default _ _ (by omega)
              rw [hd0] at hsrc
              simpa using hsrc.symm
          · rw [if_neg hia,
              if_neg (by simp only [List.length_cons]; omega),
              ← List.getD_eq_getElem?_getD]

theorem MockFlash.write_ok (c : FlashCfg) (data : List Nat) (offset : Nat)
    (bytes : List Nat) (data' : List Nat)
    (h : MockFlash.write c data offset bytes = (data', none)) :
    data'.length = data.length ∧
    ∀ a, data'.getD a 0 =
      if offset ≤ a ∧ a < offset + bytes.length
      then bytes.getD (a - offset) 0 else data.getD a 0 := by
  unfold MockFlash.write at h
  cases hc : check_write c.CAPACITY c.WRITE_SIZE offset bytes.length with
  | error e =>
    rw [hc] at h
    exact absurd (congrArg Prod.snd h) (by simp)
  | ok u =>
    rw [hc] at h
    exact MockFlash.writeLoop_ok c bytes data offset data' h

theorem MockFlash.erase_ok_char (c : FlashCfg) (data : List Nat)
    (fromAddr toAddr : Nat) (data' : List Nat)
    (h : MockFlash.erase c data fromAddr toAddr = (data', none)) :
    fromAddr ≤ toAddr ∧ toAddr ≤ c.CAPACITY ∧
    data' = splice data fromAddr
      (List.replicate (toAddr - fromAddr) c.ERASE_BYTE) := by
  unfold MockFlash.erase at h
  cases hc : check_erase c.CAPACITY c.ERASE_SIZE fromAddr toAddr with
  | error e =>
    rw [hc] at h
    exact absurd (congrArg Prod.snd h) (by simp)
  | ok u =>
    rw [hc] at h
    have hbounds : fromAddr ≤ toAddr ∧ toAddr ≤ c.CAPACITY := by
      unfold check_erase at hc
      by_cases hb : (decide (fromAddr > toAddr) ||
          decide (toAddr > c.CAPACITY)) = true
      · rw [if_pos hb] at hc
        exact absurd hc (by simp)
      · simp only [Bool.or_eq_true, decide_eq_true_eq] at hb
        omega
    exact ⟨hbounds.1, hbounds.2, (congrArg Prod.fst h).symm⟩

theorem rmwStep_ok (c : FlashCfg) (flash data : List Nat) (page : Page)
    (addr : Nat) (f1 : List Nat) (tr : Trace)
    (hlen : flash.length = c.CAPACITY)
    (hpsize : page.size = c.ERASE_SIZE)
    (hstart : page.start ≤ addr)
    (hfit : addr + data.length ≤ page.start + c.ERASE_SIZE)
    (hok : rmwStep c flash (data, page, addr) = (f1, none, tr)) :
    f1.length = flash.length ∧
    ∀ a, f1.getD a 0 =
      if addr ≤ a ∧ a < addr + data.length then data.getD (a - addr) 0
      else flash.getD a 0 := by
  simp only [rmwStep] at hok
  cases hr : MockFlash.read c flash page.start c.ERASE_SIZE with
  | error e =>
    rw [hr] at hok
    exact absurd (congrArg (fun p => p.2.1) hok) (by simp)
  | ok buf =>
    rw [hr] at hok
    dsimp only at hok
    cases he : MockFlash.erase c flash page.start page.endAddr with
    | mk fe ee =>
      rw [he] at hok
      cases ee with
      | some e =>
        dsimp only at hok
        exact absurd (congrArg (fun p => p.2.1) hok) (by simp)
      | none =>
        dsimp only at hok
        have hw1 : (MockFlash.write c fe page.start
            (splice buf (addr - page.start) data)).1 = f1 :=
          congrArg Prod.fst hok
        have hw2 : (MockFlash.write c fe page.start
            (splice buf (addr - page.start) data)).2 = none :=
          congrArg (fun p => p.2.1) hok
        have hw : MockFlash.write c fe page.start
            (splice buf (addr - page.start) data) = (f1, none) := by
          rw [← hw1, ← hw2]
        obtain ⟨hbuf, hcap⟩ :=
          MockFlash.read_ok c flash page.start c.ERASE_SIZE buf hr
        have hbl : buf.length = c.ERASE_SIZE :=
          MockFlash.read_ok_length c flash page.start c.ERASE_SIZE buf hr hlen
        obtain ⟨hef, het, hfe⟩ :=
          MockFlash.erase_ok_char c flash page.start page.endAddr fe he
        obtain ⟨hwlen, hwpt⟩ := MockFlash.write_ok c fe page.start
          (splice buf (addr - page.start) data) f1 hw
        have hsplen : (splice buf (addr - page.start) data).length =
            c.ERASE_SIZE := by
          rw [splice_length, hbl]
        have hfelen : fe.length = flash.length := by
          rw [hfe, splice_length]
        have hEnd : page.endAddr = page.start + c.ERASE_SIZE := by
          rw [Page.endAddr, hpsize]
        refine ⟨by rw [hwlen, hfelen], fun a => ?_⟩
        rw [hwpt a, hsplen]
        by_cases hpa : page.start ≤ a ∧ a < page.start + c.ERASE_SIZE
        · rw [if_pos hpa,
            splice_getD buf (addr - page.start) data (a - page.start)
              (by omega)]
          by_cases hin : addr ≤ a ∧ a < addr + data.length
          · rw [if_pos (by omega), if_pos hin]
            congr 1
            omega
          · rw [if_neg (by omega), if_neg hin, hbuf,
              slice_getD flash page.start c.ERASE_SIZE (a - page.start)
                (by omega)]
            congr 1
            omega
        · rw [if_neg hpa, if_neg (by omega), hfe,
            splice_getD flash page.start _ a
              (by simp only [List.length_replicate]; omega)]
          rw [if_neg (by simp only [List.length_replicate]; omega)]

theorem runPages_rmw_ok (c : FlashCfg) (bytes : List Nat) (offset : Nat) :
    ∀ (n j : Nat) (flash f : List Nat) (tr : Trace),
      flash.length = c.CAPACITY →
      offset < (j + 1) * c.ERASE_SIZE →
      runPages (rmwStep c)
        ((List.range' j n).map (chunkAt bytes offset c.ERASE_SIZE)) flash =
        (f, none, tr) →
      f.length = flash.length ∧
      ∀ a, f.getD a 0 =
        if max (j * c.ERASE_SIZE) offset ≤ a ∧
            a < min ((j + n) * c.ERASE_SIZE) (offset + bytes.length)
        then bytes.getD (a - offset) 0 else flash.getD a 0 := by
  intro n
  induction n with
  | zero =>
    intro j flash f tr hlen _ h
    simp only [List.range'_zero, List.map_nil, runPages] at h
    have hf : flash = f := congrArg Prod.fst h
    subst hf
    have m0 : (j + 0) * c.ERASE_SIZE = j * c.ERASE_SIZE := by ring
    refine ⟨rfl, fun a => ?_⟩
    rw [if_neg (by rw [m0]; omega)]
  | succ n ih =>
    intro j flash f tr hlen hoj h
    rw [List.range'_succ, List.map_cons] at h
    simp only [runPages] at h
    cases hs : rmwStep c flash (chunkAt bytes offset c.ERASE_SIZE j) with
    | mk f1 rest =>
      obtain ⟨r1, tr1⟩ := rest
      rw [hs] at h
      cases r1 with
      | some e =>
        dsimp only at h
        exact absurd (congrArg (fun p => p.2.1) h) (by simp)
      | none =>
        dsimp only at h
        cases hrec : runPages (rmwStep c)
            ((List.range' (j + 1) n).map
              (chunkAt bytes offset c.ERASE_SIZE)) f1 with
        | mk f2 rest2 =>
          obtain ⟨r2, tr2⟩ := rest2
          rw [hrec] at h
          dsimp only at h
          have hf2 : f2 = f := congrArg Prod.fst h
          have hr2 : r2 = none := congrArg (fun p => p.2.1) h
          subst hf2 hr2
          have m1 : (j + 1) * c.ERASE_SIZE =
              j * c.ERASE_SIZE + c.ERASE_SIZE := by ring
          have m2 : (j + 1 + n) * c.ERASE_SIZE =
              (j + 1) * c.ERASE_SIZE + n * c.ERASE_SIZE := by ring
          have m3 : (j + (n + 1)) * c.ERASE_SIZE =
              (j + 1 + n) * c.ERASE_SIZE := by ring
          have hoj1 : offset < (j + 1 + 1) * c.ERASE_SIZE := by
            have m4 : (j + 1 + 1) * c.ERASE_SIZE =
                (j + 1) * c.ERASE_SIZE + c.ERASE_SIZE := by ring
            omega
          have hdl : (chunkAt bytes offset c.ERASE_SIZE j).1.length =
              min (min (j * c.ERASE_SIZE + c.ERASE_SIZE)
                  (offset + bytes.length) - max (j * c.ERASE_SIZE) offset)
                (bytes.length - (max (j * c.ERASE_SIZE) offset - offset)) := by
            simp [chunkAt, List.length_take, List.length_drop]
          have hpns : (Page.new j c.ERASE_SIZE).start =
              j * c.ERASE_SIZE := rfl
          obtain ⟨hl1, hp1⟩ := rmwStep_ok c flash
            (chunkAt bytes offset c.ERASE_SIZE j).1
            (Page.new j c.ERASE_SIZE) (max (j * c.ERASE_SIZE) offset) f1 tr1
            hlen rfl (le_max_left _ _) (by omega) hs
          obtain ⟨hl2, hp2⟩ := ih (j + 1) f1 f2 tr2
            (by rw [hl1, hlen]) hoj1 hrec
          refine ⟨by rw [hl2, hl1], fun a => ?_⟩
          rw [hp2 a]
          by_cases hIH : max ((j + 1) * c.ERASE_SIZE) offset ≤ a ∧
              a < min ((j + 1 + n) * c.ERASE_SIZE) (offset + bytes.length)
          · rw [if_pos hIH, if_pos (by omega)]
          · rw [if_neg hIH, hp1 a]
            by_cases hstep : max (j * c.ERASE_SIZE) offset ≤ a ∧
                a < max (j * c.ERASE_SIZE) offset +
                  (chunkAt bytes offset c.ERASE_SIZE j).1.length
            · rw [if_pos hstep, if_pos (by omega)]
              simp only [chunkAt]
              rw [slice_getD bytes (max (j * c.ERASE_SIZE) offset - offset)
                (min (j * c.ERASE_SIZE + c.ERASE_SIZE)
                  (offset + bytes.length) - max (j * c.ERASE_SIZE) offset)
                (a - max (j * c.ERASE_SIZE) offset) (by omega)]
              congr 1
              omega
            · rw [if_neg hstep, if_neg (by omega)]

/-- **C1**: for the erase-required adapter `RmwNorFlashStorage`, any `write`
of `bytes` at `offset` that returns `Ok` on the `MockFlash` device leaves the
device holding `bytes` at `[offset, offset + len)` — so a subsequent
(pass-through) read of the spanned page range yields `bytes` there — and
every byte outside `[offset, offset + len)`, in the spanned pages and
elsewhere, equals its pre-write value. -/
theorem rmw_write_preserves (c : FlashCfg) (flash : List Nat) (offset : Nat)
    (bytes : List Nat) (f : List Nat) (tr : Trace)
    (hlen : flash.length = c.CAPACITY)
    (hES : 0 < c.ERASE_SIZE)
    (hdiv : c.ERASE_SIZE ∣ c.CAPACITY)
    (hbound : offset + bytes.length ≤ c.CAPACITY)
    (hok : RmwNorFlashStorage.write c flash offset bytes = (f, none, tr)) :
    (∀ i, i < bytes.length → f.getD (offset + i) 0 = bytes.getD i 0) ∧
    (∀ a, a < offset ∨ offset + bytes.length ≤ a →
      f.getD a 0 = flash.getD a 0) := by
  unfold RmwNorFlashStorage.write at hok
  by_cases hL0 : bytes.length = 0
  · have hnil : bytes = [] := List.length_eq_zero.mp hL0
    subst hnil
    rw [overlaps_nil_bytes] at hok
    simp only [runPages] at hok
    have hf : flash = f := congrArg Prod.fst hok
    subst hf
    exact ⟨fun i hi => absurd hi (by simp), fun a _ => rfl⟩
  · have hL : 0 < bytes.length := Nat.pos_of_ne_zero hL0
    obtain ⟨q, hq⟩ := hdiv
    have hm : c.CAPACITY / c.ERASE_SIZE = q := by
      rw [hq]
      exact Nat.mul_div_cancel_left q hES
    have hps : pageSeq c = (List.range' 0 (c.CAPACITY / c.ERASE_SIZE)).map
        fun i => Page.new i c.ERASE_SIZE := by
      rw [pageSeq, List.range_eq_range']
    have hi1 : (offset + bytes.length + c.ERASE_SIZE - 1) / c.ERASE_SIZE ≤
        q := by
      have h1 : (offset + bytes.length + c.ERASE_SIZE - 1) / c.ERASE_SIZE <
          q + 1 := by
        rw [Nat.div_lt_iff_lt_mul hES]
        have h2 : (q + 1) * c.ERASE_SIZE =
            c.ERASE_SIZE * q + c.ERASE_SIZE := by ring
        omega
      omega
    have hteq := overlaps_eq_range c.ERASE_SIZE offset bytes hES hL
      (c.CAPACITY / c.ERASE_SIZE) 0
    rw [Nat.zero_max] at hteq
    have hmin : min (0 + c.CAPACITY / c.ERASE_SIZE)
        ((offset + bytes.length + c.ERASE_SIZE - 1) / c.ERASE_SIZE) =
        (offset + bytes.length + c.ERASE_SIZE - 1) / c.ERASE_SIZE := by
      omega
    rw [hmin] at hteq
    have hi0le : offset / c.ERASE_SIZE ≤
        (offset + bytes.length + c.ERASE_SIZE - 1) / c.ERASE_SIZE :=
      Nat.div_le_div_right (by omega)
    have hceil : offset + bytes.length ≤
        ((offset + bytes.length + c.ERASE_SIZE - 1) / c.ERASE_SIZE) *
          c.ERASE_SIZE := by
      have hdm := Nat.div_add_mod
        (offset + bytes.length + c.ERASE_SIZE - 1) c.ERASE_SIZE
      have hml := Nat.mod_lt
        (offset + bytes.length + c.ERASE_SIZE - 1) hES
      have hcomm : ((offset + bytes.length + c.ERASE_SIZE - 1) /
          c.ERASE_SIZE) * c.ERASE_SIZE = c.ERASE_SIZE *
          ((offset + bytes.length + c.ERASE_SIZE - 1) / c.ERASE_SIZE) := by
        ring
      omega
    have hfloor : (offset / c.ERASE_SIZE) * c.ERASE_SIZE ≤ offset :=
      Nat.div_mul_le_self offset c.ERASE_SIZE
    have hoj : offset < (offset / c.ERASE_SIZE + 1) * c.ERASE_SIZE := by
      have hdm := Nat.div_add_mod offset c.ERASE_SIZE
      have hml := Nat.mod_lt offset hES
      have hcomm : (offset / c.ERASE_SIZE + 1) * c.ERASE_SIZE =
          c.ERASE_SIZE * (offset / c.ERASE_SIZE) + c.ERASE_SIZE := by ring
      omega
    rw [hps, hteq] at hok
    obtain ⟨hflen, hfpt⟩ := runPages_rmw_ok c bytes offset
      ((offset + bytes.length + c.ERASE_SIZE - 1) / c.ERASE_SIZE -
        offset / c.ERASE_SIZE)
      (offset / c.ERASE_SIZE) flash f tr hlen hoj hok
    have hi0i1 : offset / c.ERASE_SIZE +
        ((offset + bytes.length + c.ERASE_SIZE - 1) / c.ERASE_SIZE -
          offset / c.ERASE_SIZE) =
        (offset + bytes.length + c.ERASE_SIZE - 1) / c.ERASE_SIZE := by
      omega
    have heq : (offset / c.ERASE_SIZE +
        ((offset + bytes.length + c.ERASE_SIZE - 1) / c.ERASE_SIZE -
          offset / c.ERASE_SIZE)) * c.ERASE_SIZE =
        ((offset + bytes.length + c.ERASE_SIZE - 1) / c.ERASE_SIZE) *
          c.ERASE_SIZE := by
      rw [hi0i1]
    constructor
    · intro i hi
      rw [hfpt (offset + i), if_pos (by omega)]
      have hidx : offset + i - offset = i := by omega
      rw [hidx]
    · intro a ha
      rw [hfpt a, if_neg (by omega)]

/-- Witness for `rmw_write_preserves`: the spec's example — write 5 bytes at
offset 12 on a 64-byte device with 16-byte pages; byte 13 reads back as the
second written byte. -/
theorem rmw_write_preserves_witness :
    (List.range 64).length = 64 ∧ 0 < 16 ∧ (16 : Nat) ∣ 64 ∧
    12 + ([1, 2, 3, 4, 5] : List Nat).length ≤ 64 ∧
    (RmwNorFlashStorage.write ⟨64, 4, 4, 16, 255, false⟩ (List.range 64) 12
      [1, 2, 3, 4, 5]).1.getD (12 + 1) 0 =
      ([1, 2, 3, 4, 5] : List Nat).getD 1 0 := by
  refine ⟨by decide, by decide, by decide, by decide, ?_⟩
  have hok : RmwNorFlashStorage.write ⟨64, 4, 4, 16, 255, false⟩
      (List.range 64) 12 [1, 2, 3, 4, 5] =
      ((RmwNorFlashStorage.write ⟨64, 4, 4, 16, 255, false⟩
        (List.range 64) 12 [1, 2, 3, 4, 5]).1, none,
       (RmwNorFlashStorage.write ⟨64, 4, 4, 16, 255, false⟩
        (List.range 64) 12 [1, 2, 3, 4, 5]).2.2) := by rfl
  exact (rmw_write_preserves ⟨64, 4, 4, 16, 255, false⟩ (List.range 64) 12
    [1, 2, 3, 4, 5] _ _ (by decide) (by decide) (by decide) (by decide)
    hok).1 1 (by decide)
